import Mathlib

/-!
# Verification of the Zap Huffman codec (proj3)

Shallow embedding of the Huffman codec implemented in
`src/proj3/HuffmanCoder.cpp` and `src/proj3/phaseOne.cpp`.

Modelling conventions:
* `std::string` and byte sequences are modelled as `List Char`; one `Char`
  models one C++ `char` (one byte).
* A `HuffmanTreeNode*` pointer is modelled by the inductive `HuffmanTreeNode`,
  with constructor `nil` standing for `nullptr` and `node val freq left right`
  standing for a heap-allocated node.  The node class itself
  (`HuffmanTreeNode.h`, a course library not present in the sources) is
  modelled from the spec: a node carries a symbol, a frequency and two child
  pointers, and `isLeaf()` holds exactly when both children are null.
* Functions that can throw (`std::runtime_error`, `std::out_of_range`) return
  `Option`; `none` is an error.  Undefined behaviour reachable in the source
  (`pq.top()` on an empty priority queue in `buildHuffmanTree`;
  `root->isLeaf()` on a null pointer in `decoder`) is likewise modelled as the
  error-ish value (`nil` tree / `none`) and flagged with a comment where it
  occurs.
* `std::unordered_map` is modelled as an association list whose keys are kept
  distinct by an overwrite-on-insert operation (`mapInsert`); the map's
  unspecified iteration order is modelled as insertion order.
-/

/-- The null byte `'\0'` used by the source as the symbol of internal nodes. -/
def nullChar : Char := Char.ofNat 0

/-- Model of `HuffmanTreeNode*`: `nil` is `nullptr`, `node v f l r` is a node
holding symbol `v`, frequency `f` and child pointers `l`, `r`.  Modelled from
the spec (the node header is a course library outside the sources): a tree
node is a symbol, a frequency and two child pointers. -/
inductive HuffmanTreeNode : Type where
  | nil : HuffmanTreeNode
  | node (val : Char) (freq : Nat) (left right : HuffmanTreeNode) : HuffmanTreeNode
deriving DecidableEq

/-- `p == nullptr` test on a node pointer. -/
def isNil : HuffmanTreeNode → Bool
  | .nil => true
  | .node _ _ _ _ => false

/-- `HuffmanTreeNode::isLeaf()`.  Modelled from the spec: a node is a leaf iff
it has zero children (both child pointers null). -/
def isLeaf : HuffmanTreeNode → Bool
  | .node _ _ .nil .nil => true
  | _ => false

/-- `HuffmanTreeNode::get_val()`; never invoked on a null pointer by the
modelled code paths (doing so in C++ would be undefined behaviour). -/
def get_val : HuffmanTreeNode → Char
  | .nil => nullChar
  | .node v _ _ _ => v

/-- `HuffmanTreeNode::get_freq()`; never invoked on a null pointer by the
modelled code paths. -/
def get_freq : HuffmanTreeNode → Nat
  | .nil => 0
  | .node _ f _ _ => f

/-- `HuffmanTreeNode::get_left()`; never invoked on a null pointer by the
modelled code paths. -/
def get_left : HuffmanTreeNode → HuffmanTreeNode
  | .nil => .nil
  | .node _ _ l _ => l

/-- `HuffmanTreeNode::get_right()`; never invoked on a null pointer by the
modelled code paths. -/
def get_right : HuffmanTreeNode → HuffmanTreeNode
  | .nil => .nil
  | .node _ _ _ r => r

/-- `m[k] = v` on a `std::unordered_map` modelled as an association list:
overwrite the entry for `k` if present, otherwise add one.  Keys stay
distinct, matching map semantics; the unspecified bucket order is modelled as
insertion order. -/
def mapInsert (m : List (Char × List Char)) (k : Char) (v : List Char) :
    List (Char × List Char) :=
  match m with
  | [] => [(k, v)]
  | (k', v') :: rest =>
    if k' = k then (k', v) :: rest else (k', v') :: mapInsert rest k v

/-- `m.at(k)` on a `std::unordered_map` modelled as an association list:
`none` models the `std::out_of_range` exception for an absent key. -/
def mapAt (m : List (Char × List Char)) (k : Char) : Option (List Char) :=
  match m with
  | [] => none
  | (k', v) :: rest => if k' = k then some v else mapAt rest k

/-- One step of `char_frequencies[c]++` in
`HuffmanCoder::countCharFrequencies`: increment the count of `c`, inserting a
fresh entry at count 1 when `c` is not yet a key (`operator[]`
value-initialises to 0 and `++` makes it 1). -/
def bump : List (Char × Nat) → Char → List (Char × Nat)
  | [], c => [(c, 1)]
  | (k, n) :: rest, c =>
    if k = c then (k, n + 1) :: rest else (k, n) :: bump rest c

/-- `HuffmanCoder::countCharFrequencies`, with the file contents passed in as
a byte list (the `ifstream` reading loop is external I/O): count the
frequency of every byte of the input.  The `unordered_map`'s unspecified
iteration order is modelled as first-occurrence order. -/
def countCharFrequencies (input : List Char) : List (Char × Nat) :=
  input.foldl bump []

/-- `pq.top()`/`pq.pop()` pair on the `std::priority_queue` of
`buildHuffmanTree`.  The queue uses `NodeComparator` (a course library outside
the sources); modelled from the spec: a min-priority order on `get_freq`,
whose tie-break between equal frequencies is unspecified — modelled here as
the deterministic choice of the earliest-inserted minimal node.  Returns the
extracted node and the remaining queue, `none` on an empty queue. -/
def popMin : List HuffmanTreeNode →
    Option (HuffmanTreeNode × List HuffmanTreeNode)
  | [] => none
  | t :: rest =>
    match popMin rest with
    | none => some (t, [])
    | some (m, r) =>
      if get_freq t ≤ get_freq m then some (t, rest) else some (m, t :: r)

/-- The `while (pq.size() > 1)` merge loop of `HuffmanCoder::buildHuffmanTree`.
`fuel` is an upper bound on the number of merges (each merge shrinks the
queue by one, so the initial queue size always suffices); the loop guard
`pq.size() > 1` is equivalent to both extractions succeeding.  Each iteration
extracts the two lowest-frequency nodes and pushes a parent with symbol
`'\0'` and the combined frequency. -/
def buildLoop : Nat → List HuffmanTreeNode → List HuffmanTreeNode
  | 0, q => q
  | fuel + 1, q =>
    match popMin q with
    | none => q
    | some (left, q1) =>
      match popMin q1 with
      | none => q
      | some (right, q2) =>
        buildLoop fuel
          (q2 ++ [.node nullChar (get_freq left + get_freq right) left right])

/-- `HuffmanCoder::buildHuffmanTree`: push one leaf per table entry, run the
merge loop, and return `pq.top()`.  On an empty frequency table `pq.top()` is
undefined behaviour in C++ (empty priority queue); modelled as the null
tree. -/
def buildHuffmanTree (char_frequencies : List (Char × Nat)) : HuffmanTreeNode :=
  let q := char_frequencies.map (fun p => HuffmanTreeNode.node p.1 p.2 .nil .nil)
  (buildLoop q.length q).headD .nil

/-- `HuffmanCoder::generateCharCodes`: record the accumulated code at each
leaf (`char_codes[val] = code`), descending left with `code + "0"` and right
with `code + "1"`. -/
def generateCharCodes (root : HuffmanTreeNode)
    (char_codes : List (Char × List Char)) (code : List Char) :
    List (Char × List Char) :=
  match root with
  | .nil => char_codes
  | .node v _ l r =>
    if isLeaf root then mapInsert char_codes v code
    else
      generateCharCodes r (generateCharCodes l char_codes (code ++ ['0']))
        (code ++ ['1'])

/-- The encoding loop of `HuffmanCoder::encodeText`'s else-branch:
`encoded_text += char_codes.at(c)` for each input byte; a missing key throws
(`none`). -/
def encodeLoop : List Char → List (Char × List Char) → Option (List Char)
  | [], _ => some []
  | c :: rest, char_codes =>
    match mapAt char_codes c with
    | none => none
    | some p => (encodeLoop rest char_codes).map (fun e => p ++ e)

/-- `HuffmanCoder::encodeText`: if the code table has exactly one entry the
result is `input_text.size()` many `'0'` characters; otherwise each byte is
replaced by its code from the table. -/
def encodeText (input_text : List Char) (char_codes : List (Char × List Char)) :
    Option (List Char) :=
  if char_codes.length = 1 then
    some (List.replicate input_text.length '0')
  else
    encodeLoop input_text char_codes

/-- `HuffmanCoder::serializeHuffmanTree`: empty tree serializes to the empty
string, a leaf to `'L'` followed by the raw symbol byte, an internal node to
`'I'` followed by the serializations of left then right. -/
def serializeHuffmanTree (root : HuffmanTreeNode) : List Char :=
  match root with
  | .nil => []
  | .node v _ l r =>
    if isLeaf root then ['L', v]
    else 'I' :: (serializeHuffmanTree l ++ serializeHuffmanTree r)

/-- `HuffmanCoder::deserializeHuffmanTreeHelper`.  The mutable index into the
string is modelled by returning the unread suffix.  `fuel` bounds the
recursion depth (each recursive call is on a strictly shorter suffix, so the
string length always suffices; the `fuel = 0` arm is unreachable when
`fuel ≥ length`).  When the index is past the end (`[]`) the helper returns
`nullptr`.  Reading the symbol of a leaf tag at the last position reads
`serialized_tree[size]`, which for `std::string` is the terminating `'\0'`
(defined behaviour), producing a leaf with symbol `'\0'`.  Any tag byte other
than `'L'` takes the internal-node branch. -/
def deserializeHuffmanTreeHelper : Nat → List Char → HuffmanTreeNode × List Char
  | _, [] => (.nil, [])
  | 0, s => (.nil, s)
  | fuel + 1, c :: rest =>
    if c = 'L' then
      match rest with
      | [] => (.node nullChar 0 .nil .nil, [])
      | v :: rest2 => (.node v 0 .nil .nil, rest2)
    else
      let pl := deserializeHuffmanTreeHelper fuel rest
      let pr := deserializeHuffmanTreeHelper fuel pl.2
      (.node nullChar 0 pl.1 pr.1, pr.2)

/-- `HuffmanCoder::deserializeHuffmanTree`: the empty string deserializes to
the null tree, otherwise the recursive helper runs from index 0. -/
def deserializeHuffmanTree (serialized_tree : List Char) : HuffmanTreeNode :=
  if serialized_tree = [] then .nil
  else (deserializeHuffmanTreeHelper serialized_tree.length serialized_tree).1

/-- The per-bit loop of `HuffmanCoder::decodeText`, with `curr` the cursor
node.  `'0'` moves the cursor left, `'1'` right, any other character leaves
it unchanged; a null cursor throws (`none`); a leaf cursor emits its symbol
and resets to the root.  After the loop, `curr != root` throws.  The C++
comparison `curr != root` is on pointers; since the cursor only ever points
at subtrees of `root` and a proper subtree of a finite tree is structurally
smaller than the whole, structural equality coincides with pointer equality
here. -/
def decodeLoop (root : HuffmanTreeNode) :
    List Char → HuffmanTreeNode → Option (List Char)
  | [], curr => if curr = root then some [] else none
  | bit :: rest, curr =>
    let nxt :=
      if bit = '0' then get_left curr
      else if bit = '1' then get_right curr
      else curr
    if isNil nxt then none
    else if isLeaf nxt then
      (decodeLoop root rest root).map (fun s => get_val nxt :: s)
    else decodeLoop root rest nxt

/-- `HuffmanCoder::decodeText`: a null tree throws, otherwise the cursor walk
starts at the root. -/
def decodeText (encoded_text : List Char) (root : HuffmanTreeNode) :
    Option (List Char) :=
  if isNil root then none else decodeLoop root encoded_text root

/-- The decoding stage of `HuffmanCoder::decoder` (lines 97–115), after the
external `BinaryIO` collaborator has produced the deserialized tree and the
bit-character string.  On a null root the call `root->isLeaf()` dereferences a
null pointer (undefined behaviour), modelled as `none`.  If the root is a
leaf and the bit string is all `'0'`, the output is one copy of the leaf
symbol per bit; otherwise `decodeText` runs. -/
def decodeStage (root : HuffmanTreeNode) (encoded_text : List Char) :
    Option (List Char) :=
  match root with
  | .nil => none
  | .node _ _ _ _ =>
    if isLeaf root then
      if encoded_text.all (fun ch => ch == '0') then
        some (List.replicate encoded_text.length (get_val root))
      else decodeText encoded_text root
    else decodeText encoded_text root

/-- `HuffmanCoder::decoder` given the two strings the `BinaryIO` collaborator
reads back from the compressed file: deserialize the tree, then run the
decoding stage. -/
def decoder (serialized_tree encoded_text : List Char) : Option (List Char) :=
  decodeStage (deserializeHuffmanTree serialized_tree) encoded_text

/-- `serialize_tree` from `phaseOne.cpp`: the free-function duplicate of the
serializer, same `L`/`I` preorder grammar. -/
def serialize_tree (root : HuffmanTreeNode) : List Char :=
  match root with
  | .nil => []
  | .node v _ l r =>
    if isLeaf root then ['L', v]
    else 'I' :: (serialize_tree l ++ serialize_tree r)

/-- The recursive `deserialize_tree(serial_tree, pos)` from `phaseOne.cpp`:
identical parse to `deserializeHuffmanTreeHelper` except that nodes are built
with frequency 1 instead of 0 (the frequency is unused after
deserialization).  Same index/fuel modelling as the member version, including
the `serial_tree[pos]` read of the terminating `'\0'` for a trailing `'L'`. -/
def deserialize_treeHelper : Nat → List Char → HuffmanTreeNode × List Char
  | _, [] => (.nil, [])
  | 0, s => (.nil, s)
  | fuel + 1, c :: rest =>
    if c = 'L' then
      match rest with
      | [] => (.node nullChar 1 .nil .nil, [])
      | v :: rest2 => (.node v 1 .nil .nil, rest2)
    else
      let pl := deserialize_treeHelper fuel rest
      let pr := deserialize_treeHelper fuel pl.2
      (.node nullChar 1 pl.1 pr.1, pr.2)

/-- The wrapper `deserialize_tree(serial_tree)` from `phaseOne.cpp`: parse
from position 0 (no special case for the empty string; the helper returns
`nullptr` on it). -/
def deserialize_tree (serial_tree : List Char) : HuffmanTreeNode :=
  (deserialize_treeHelper serial_tree.length serial_tree).1

/-!
## Claim-side predicates

The following definitions formalise the vocabulary of the specification's
claims; they are not translations of source functions.
-/

/-- The symbols at the leaves of a tree, left to right. -/
def leaves : HuffmanTreeNode → List Char
  | .nil => []
  | .node v f l r =>
    if isLeaf (.node v f l r) then [v] else leaves l ++ leaves r

/-- All leaf symbols of all trees of a queue, in order. -/
def leavesOfQueue : List HuffmanTreeNode → List Char
  | [] => []
  | t :: q => leaves t ++ leavesOfQueue q

/-- Spec §3 tree-shape invariant: the tree is non-null, a node is a leaf iff
it has zero children, and every internal node has exactly two (non-null)
children. -/
def fullB : HuffmanTreeNode → Bool
  | .nil => false
  | .node v f l r =>
    if isLeaf (.node v f l r) then true
    else !isNil l && !isNil r && fullB l && fullB r

/-- Spec §3 frequency invariant: every internal node carries a frequency
equal to the sum of its two children's frequencies. -/
def freqInvB : HuffmanTreeNode → Bool
  | .nil => true
  | .node v f l r =>
    if isLeaf (.node v f l r) then true
    else (f == get_freq l + get_freq r) && freqInvB l && freqInvB r

/-- Structural identity in the sense of claims C2 and C9: same shape, same
symbol at each leaf position (frequencies and internal-node symbols are not
compared, matching "same shape, same symbols at same leaf positions"). -/
def sameShape : HuffmanTreeNode → HuffmanTreeNode → Bool
  | .nil, .nil => true
  | .node v _ .nil .nil, .node v' _ .nil .nil => v = v'
  | .node _ _ l r, .node _ _ l' r' => sameShape l l' && sameShape r r'
  | _, _ => false

/-- `LeafPath t p c`: following the bit path `p` from `t` (left on `'0'`,
right on `'1'`) reaches a leaf whose symbol is `c`. -/
inductive LeafPath : HuffmanTreeNode → List Char → Char → Prop where
  | here (v : Char) (f : Nat) : LeafPath (.node v f .nil .nil) [] v
  | goLeft (v : Char) (f : Nat) (l r : HuffmanTreeNode) (p : List Char)
      (c : Char) : LeafPath l p c → LeafPath (.node v f l r) ('0' :: p) c
  | goRight (v : Char) (f : Nat) (l r : HuffmanTreeNode) (p : List Char)
      (c : Char) : LeafPath r p c → LeafPath (.node v f l r) ('1' :: p) c

/-- The association list of (leaf symbol, root-to-leaf path) pairs of a tree,
each path prefixed by `code`; the reference shape of `generateCharCodes`'s
output. -/
def pathsList : HuffmanTreeNode → List Char → List (Char × List Char)
  | .nil, _ => []
  | .node v f l r, code =>
    if isLeaf (.node v f l r) then [(v, code)]
    else pathsList l (code ++ ['0']) ++ pathsList r (code ++ ['1'])

/-- The cursor walk described by claim C4 / spec §4.4: starting from `curr`,
`'0'` moves left and `'1'` moves right; reaching a null child kills the walk
(`none`); landing on a leaf resets the cursor to `root`.  Returns the final
cursor. -/
def cursorWalk (root : HuffmanTreeNode) :
    List Char → HuffmanTreeNode → Option HuffmanTreeNode
  | [], curr => some curr
  | bit :: rest, curr =>
    let nxt := if bit = '0' then get_left curr else get_right curr
    if isNil nxt then none
    else cursorWalk root rest (if isLeaf nxt then root else nxt)


/-!
## Basic facts about nodes, maps and queues
-/

theorem isNil_eq_true_iff (t : HuffmanTreeNode) : isNil t = true ↔ t = .nil := by
  cases t <;> simp [isNil]

@[simp] theorem isLeaf_nil : isLeaf .nil = false := rfl

@[simp] theorem isLeaf_leaf (v : Char) (f : Nat) :
    isLeaf (.node v f .nil .nil) = true := rfl

theorem isLeaf_node_iff (v : Char) (f : Nat) (l r : HuffmanTreeNode) :
    isLeaf (.node v f l r) = true ↔ l = .nil ∧ r = .nil := by
  cases l <;> cases r <;> simp [isLeaf]

theorem fullB_node_eq (v : Char) (f : Nat) (l r : HuffmanTreeNode) :
    fullB (.node v f l r) =
      (if isLeaf (.node v f l r) then true
       else !isNil l && !isNil r && fullB l && fullB r) := rfl

theorem freqInvB_node_eq (v : Char) (f : Nat) (l r : HuffmanTreeNode) :
    freqInvB (.node v f l r) =
      (if isLeaf (.node v f l r) then true
       else (f == get_freq l + get_freq r) && freqInvB l && freqInvB r) := rfl

theorem leaves_node_eq (v : Char) (f : Nat) (l r : HuffmanTreeNode) :
    leaves (.node v f l r) =
      (if isLeaf (.node v f l r) then [v] else leaves l ++ leaves r) := rfl

theorem fullB_ne_nil {t : HuffmanTreeNode} (h : fullB t = true) : t ≠ .nil := by
  cases t with
  | nil => simp [fullB] at h
  | node v f l r => intro hc; cases hc

theorem fullB_parent (v : Char) (f : Nat) {l r : HuffmanTreeNode}
    (hl : fullB l = true) (hr : fullB r = true) :
    fullB (.node v f l r) = true := by
  cases l with
  | nil => simp [fullB] at hl
  | node a b c d =>
    cases r with
    | nil => simp [fullB] at hr
    | node e g h i =>
      rw [fullB_node_eq]
      have hL : isLeaf (.node v f (.node a b c d) (.node e g h i)) = false := rfl
      rw [hL]
      simp [isNil, hl, hr]

theorem freqInvB_parent (v : Char) {l r : HuffmanTreeNode}
    (hl : freqInvB l = true) (hr : freqInvB r = true) :
    freqInvB (.node v (get_freq l + get_freq r) l r) = true := by
  rw [freqInvB_node_eq]
  cases hL : isLeaf (.node v (get_freq l + get_freq r) l r) with
  | true => rfl
  | false => simp [hl, hr]

theorem leaves_parent (v : Char) (f : Nat) {l : HuffmanTreeNode}
    (r : HuffmanTreeNode) (hl : l ≠ .nil) :
    leaves (.node v f l r) = leaves l ++ leaves r := by
  cases l with
  | nil => exact absurd rfl hl
  | node a b c d =>
    rw [leaves_node_eq]
    have hL : isLeaf (.node v f (.node a b c d) r) = false := by
      rw [Bool.eq_false_iff]
      intro hc
      obtain ⟨h1, h2⟩ := (isLeaf_node_iff _ _ _ _).mp hc
      cases h1
    rw [hL]
    simp

@[simp] theorem leaves_leaf (v : Char) (f : Nat) :
    leaves (.node v f .nil .nil) = [v] := rfl

theorem popMin_cons_ne_none (t : HuffmanTreeNode)
    (rest : List HuffmanTreeNode) : popMin (t :: rest) ≠ none := by
  simp only [popMin]
  cases popMin rest with
  | none => simp
  | some p =>
    obtain ⟨m, r⟩ := p
    dsimp only
    split <;> simp

theorem popMin_perm : ∀ {q : List HuffmanTreeNode} {x : HuffmanTreeNode}
    {r : List HuffmanTreeNode}, popMin q = some (x, r) → (x :: r).Perm q := by
  intro q
  induction q with
  | nil => intro x r h; simp [popMin] at h
  | cons t rest ih =>
    intro x r h
    simp only [popMin] at h
    cases hr : popMin rest with
    | none =>
      rw [hr] at h
      simp only [Option.some.injEq, Prod.mk.injEq] at h
      obtain ⟨h1, h2⟩ := h
      subst h1
      subst h2
      have hre : rest = [] := by
        cases rest with
        | nil => rfl
        | cons a b => exact absurd hr (popMin_cons_ne_none a b)
      subst hre
      exact List.Perm.refl _
    | some p =>
      obtain ⟨m, rr⟩ := p
      rw [hr] at h
      dsimp only at h
      split at h
      · simp only [Option.some.injEq, Prod.mk.injEq] at h
        obtain ⟨h1, h2⟩ := h
        subst h1
        subst h2
        exact List.Perm.refl _
      · simp only [Option.some.injEq, Prod.mk.injEq] at h
        obtain ⟨h1, h2⟩ := h
        subst h1
        subst h2
        exact (List.Perm.swap t m rr).trans ((ih hr).cons t)

theorem popMin_length {q : List HuffmanTreeNode} {x : HuffmanTreeNode}
    {r : List HuffmanTreeNode} (h : popMin q = some (x, r)) :
    r.length + 1 = q.length := by
  simpa using (popMin_perm h).length_eq

@[simp] theorem leavesOfQueue_nil : leavesOfQueue [] = [] := rfl

@[simp] theorem leavesOfQueue_cons (t : HuffmanTreeNode)
    (q : List HuffmanTreeNode) :
    leavesOfQueue (t :: q) = leaves t ++ leavesOfQueue q := rfl

theorem leavesOfQueue_append (q1 q2 : List HuffmanTreeNode) :
    leavesOfQueue (q1 ++ q2) = leavesOfQueue q1 ++ leavesOfQueue q2 := by
  induction q1 with
  | nil => simp
  | cons t q ih => simp [ih]

theorem leavesOfQueue_perm {q q' : List HuffmanTreeNode} (h : q.Perm q') :
    (leavesOfQueue q).Perm (leavesOfQueue q') := by
  induction h with
  | nil => exact List.Perm.refl _
  | cons x _ ih => simpa using ih.append_left (leaves x)
  | swap x y l =>
    simp only [leavesOfQueue_cons]
    rw [← List.append_assoc, ← List.append_assoc]
    exact List.perm_append_comm.append_right _
  | trans _ _ ih1 ih2 => exact ih1.trans ih2

theorem buildLoop_spec : ∀ (fuel : Nat) (q : List HuffmanTreeNode), q ≠ [] →
    q.length ≤ fuel + 1 →
    (∀ t ∈ q, fullB t = true) → (∀ t ∈ q, freqInvB t = true) →
    ∃ root, buildLoop fuel q = [root] ∧ fullB root = true ∧
      freqInvB root = true ∧ (leaves root).Perm (leavesOfQueue q) := by
  intro fuel
  induction fuel with
  | zero =>
    intro q hne hlen hfull hinv
    match q, hne with
    | [t], _ =>
      exact ⟨t, rfl, hfull t (by simp), hinv t (by simp), by simp⟩
    | t₁ :: t₂ :: rest, _ => simp at hlen
  | succ fuel ih =>
    intro q hne hlen hfull hinv
    match q, hne with
    | [t], _ =>
      refine ⟨t, ?_, hfull t (by simp), hinv t (by simp), by simp⟩
      simp [buildLoop, popMin]
    | t₁ :: t₂ :: rest, _ =>
      obtain ⟨l, q1, h1⟩ : ∃ l q1, popMin (t₁ :: t₂ :: rest) = some (l, q1) := by
        cases h : popMin (t₁ :: t₂ :: rest) with
        | none => exact absurd h (popMin_cons_ne_none _ _)
        | some p =>
          obtain ⟨m, rr⟩ := p
          exact ⟨m, rr, rfl⟩
      have hperm1 := popMin_perm h1
      have hlen1 := popMin_length h1
      have hq1ne : q1 ≠ [] := by
        intro hh
        rw [hh] at hlen1
        simp at hlen1
      obtain ⟨r, q2, h2⟩ : ∃ r q2, popMin q1 = some (r, q2) := by
        match q1, hq1ne with
        | a :: b, _ =>
          cases h : popMin (a :: b) with
          | none => exact absurd h (popMin_cons_ne_none _ _)
          | some p =>
            obtain ⟨m, rr⟩ := p
            exact ⟨m, rr, rfl⟩
      have hperm2 := popMin_perm h2
      have hlen2 := popMin_length h2
      have hmem1 : ∀ s ∈ l :: q1, s ∈ t₁ :: t₂ :: rest :=
        fun s hs => hperm1.mem_iff.mp hs
      have hmem2 : ∀ s ∈ r :: q2, s ∈ q1 := fun s hs => hperm2.mem_iff.mp hs
      have hlf : fullB l = true := hfull l (hmem1 l (by simp))
      have hrf : fullB r = true :=
        hfull r (hmem1 r (List.mem_cons_of_mem l (hmem2 r (by simp))))
      have hli : freqInvB l = true := hinv l (hmem1 l (by simp))
      have hri : freqInvB r = true :=
        hinv r (hmem1 r (List.mem_cons_of_mem l (hmem2 r (by simp))))
      have hstep : buildLoop (fuel + 1) (t₁ :: t₂ :: rest) =
          buildLoop fuel
            (q2 ++ [.node nullChar (get_freq l + get_freq r) l r]) := by
        simp only [buildLoop, h1, h2]
      have hq'ne : q2 ++ [HuffmanTreeNode.node nullChar
          (get_freq l + get_freq r) l r] ≠ [] := by simp
      have hq'len : (q2 ++ [HuffmanTreeNode.node nullChar
          (get_freq l + get_freq r) l r]).length ≤ fuel + 1 := by
        have : (t₁ :: t₂ :: rest).length ≤ fuel + 2 := hlen
        simp only [List.length_append, List.length_singleton]
        simp only [List.length_cons] at this hlen1 hlen2
        omega
      have hq'full : ∀ t ∈ q2 ++ [HuffmanTreeNode.node nullChar
          (get_freq l + get_freq r) l r], fullB t = true := by
        intro t ht
        rcases List.mem_append.mp ht with h | h
        · exact hfull t (hmem1 t (List.mem_cons_of_mem l
            (hmem2 t (List.mem_cons_of_mem r h))))
        · have : t = HuffmanTreeNode.node nullChar
              (get_freq l + get_freq r) l r := by simpa using h
          rw [this]
          exact fullB_parent _ _ hlf hrf
      have hq'inv : ∀ t ∈ q2 ++ [HuffmanTreeNode.node nullChar
          (get_freq l + get_freq r) l r], freqInvB t = true := by
        intro t ht
        rcases List.mem_append.mp ht with h | h
        · exact hinv t (hmem1 t (List.mem_cons_of_mem l
            (hmem2 t (List.mem_cons_of_mem r h))))
        · have : t = HuffmanTreeNode.node nullChar
              (get_freq l + get_freq r) l r := by simpa using h
          rw [this]
          exact freqInvB_parent _ hli hri
      obtain ⟨root, hroot, hfull', hinv', hperm'⟩ :=
        ih _ hq'ne hq'len hq'full hq'inv
      refine ⟨root, by rw [hstep, hroot], hfull', hinv', ?_⟩
      refine hperm'.trans ?_
      have hp : leaves (HuffmanTreeNode.node nullChar
          (get_freq l + get_freq r) l r) = leaves l ++ leaves r :=
        leaves_parent _ _ _ (fullB_ne_nil hlf)
      rw [leavesOfQueue_append, leavesOfQueue_cons, leavesOfQueue_nil, hp,
        List.append_nil]
      refine (List.perm_append_comm).trans ?_
      have c1 : (leavesOfQueue q1).Perm (leaves r ++ leavesOfQueue q2) :=
        (leavesOfQueue_perm hperm2).symm
      have c2 : (leavesOfQueue (t₁ :: t₂ :: rest)).Perm
          (leaves l ++ leavesOfQueue q1) := (leavesOfQueue_perm hperm1).symm
      rw [List.append_assoc]
      exact (c1.symm.append_left (leaves l)).trans c2.symm

/-!
## Frequency counting and the tree builder
-/

theorem initialQueue_full (freqs : List (Char × Nat)) :
    ∀ t ∈ freqs.map (fun p => HuffmanTreeNode.node p.1 p.2 .nil .nil),
      fullB t = true := by
  intro t ht
  simp only [List.mem_map] at ht
  obtain ⟨p, _, hp⟩ := ht
  rw [← hp]
  rfl

theorem initialQueue_freqInv (freqs : List (Char × Nat)) :
    ∀ t ∈ freqs.map (fun p => HuffmanTreeNode.node p.1 p.2 .nil .nil),
      freqInvB t = true := by
  intro t ht
  simp only [List.mem_map] at ht
  obtain ⟨p, _, hp⟩ := ht
  rw [← hp]
  rfl

theorem leavesOfQueue_initial (freqs : List (Char × Nat)) :
    leavesOfQueue (freqs.map (fun p => HuffmanTreeNode.node p.1 p.2 .nil .nil))
      = freqs.map Prod.fst := by
  induction freqs with
  | nil => rfl
  | cons p rest ih => simp [leavesOfQueue_cons, ih]

theorem buildHuffmanTree_spec (freqs : List (Char × Nat)) (h : freqs ≠ []) :
    fullB (buildHuffmanTree freqs) = true ∧
      freqInvB (buildHuffmanTree freqs) = true ∧
      (leaves (buildHuffmanTree freqs)).Perm (freqs.map Prod.fst) := by
  have hq : freqs.map (fun p => HuffmanTreeNode.node p.1 p.2 .nil .nil) ≠ [] := by
    simpa using h
  obtain ⟨root, hroot, hfull, hinv, hperm⟩ :=
    buildLoop_spec
      (freqs.map (fun p => HuffmanTreeNode.node p.1 p.2 .nil .nil)).length
      (freqs.map (fun p => HuffmanTreeNode.node p.1 p.2 .nil .nil)) hq
      (Nat.le_succ _) (initialQueue_full freqs) (initialQueue_freqInv freqs)
  have hbt : buildHuffmanTree freqs = root := by
    show (buildLoop
        (freqs.map (fun p => HuffmanTreeNode.node p.1 p.2 .nil .nil)).length
        (freqs.map (fun p => HuffmanTreeNode.node p.1 p.2 .nil .nil))).headD
        .nil = root
    rw [hroot]
    rfl
  rw [hbt]
  exact ⟨hfull, hinv, hperm.trans (by rw [leavesOfQueue_initial])⟩

theorem bump_keys (m : List (Char × Nat)) (c : Char) :
    (bump m c).map Prod.fst =
      (if c ∈ m.map Prod.fst then m.map Prod.fst
       else m.map Prod.fst ++ [c]) := by
  induction m with
  | nil => simp [bump]
  | cons p rest ih =>
    obtain ⟨k, n⟩ := p
    by_cases hk : k = c
    · subst hk
      simp [bump]
    · simp only [bump, if_neg hk, List.map_cons, ih]
      by_cases hc : c ∈ rest.map Prod.fst
      · simp [hc, Ne.symm hk]
      · simp [hc, Ne.symm hk]

theorem mem_keys_bump (m : List (Char × Nat)) (c x : Char) :
    x ∈ (bump m c).map Prod.fst ↔ x ∈ m.map Prod.fst ∨ x = c := by
  rw [bump_keys]
  by_cases hc : c ∈ m.map Prod.fst
  · simp only [if_pos hc]
    constructor
    · exact fun h => Or.inl h
    · rintro (h | h)
      · exact h
      · rw [h]; exact hc
  · simp [if_neg hc]

theorem nodup_keys_bump (m : List (Char × Nat)) (c : Char)
    (h : (m.map Prod.fst).Nodup) : ((bump m c).map Prod.fst).Nodup := by
  rw [bump_keys]
  by_cases hc : c ∈ m.map Prod.fst
  · simpa [if_pos hc] using h
  · rw [if_neg hc]
    rw [List.nodup_append]
    refine ⟨h, List.nodup_singleton c, ?_⟩
    intro a ha hb
    rw [List.mem_singleton.mp hb] at ha
    exact hc ha

theorem foldl_bump_nodup (input : List Char) : ∀ (m : List (Char × Nat)),
    (m.map Prod.fst).Nodup → (((input.foldl bump m)).map Prod.fst).Nodup := by
  induction input with
  | nil => intro m h; simpa using h
  | cons c rest ih =>
    intro m h
    simpa [List.foldl_cons] using ih (bump m c) (nodup_keys_bump m c h)

theorem foldl_bump_mem (input : List Char) : ∀ (m : List (Char × Nat)) (x : Char),
    x ∈ (input.foldl bump m).map Prod.fst ↔ x ∈ m.map Prod.fst ∨ x ∈ input := by
  induction input with
  | nil => intro m x; simp
  | cons c rest ih =>
    intro m x
    rw [List.foldl_cons, ih (bump m c) x, mem_keys_bump]
    constructor
    · rintro ((h | h) | h)
      · exact Or.inl h
      · exact Or.inr (by rw [h]; exact List.mem_cons_self c rest)
      · exact Or.inr (List.mem_cons_of_mem c h)
    · rintro (h | h)
      · exact Or.inl (Or.inl h)
      · rcases List.mem_cons.mp h with h | h
        · exact Or.inl (Or.inr h)
        · exact Or.inr h

theorem countCharFrequencies_nodup (input : List Char) :
    ((countCharFrequencies input).map Prod.fst).Nodup :=
  foldl_bump_nodup input [] (by simp)

theorem countCharFrequencies_mem (input : List Char) (x : Char) :
    x ∈ (countCharFrequencies input).map Prod.fst ↔ x ∈ input := by
  rw [countCharFrequencies, foldl_bump_mem]
  simp

theorem countCharFrequencies_ne_nil {input : List Char} (h : input ≠ []) :
    countCharFrequencies input ≠ [] := by
  intro hc
  match input, h with
  | c :: rest, _ =>
    have : c ∈ (countCharFrequencies (c :: rest)).map Prod.fst :=
      (countCharFrequencies_mem _ c).mpr (List.mem_cons_self c rest)
    rw [hc] at this
    simp at this

/-!
## Code tables and root-to-leaf paths
-/

theorem pathsList_node_eq (v : Char) (f : Nat) (l r : HuffmanTreeNode)
    (code : List Char) :
    pathsList (.node v f l r) code =
      (if isLeaf (.node v f l r) then [(v, code)]
       else pathsList l (code ++ ['0']) ++ pathsList r (code ++ ['1'])) := rfl

theorem generateCharCodes_node_eq (v : Char) (f : Nat) (l r : HuffmanTreeNode)
    (m : List (Char × List Char)) (code : List Char) :
    generateCharCodes (.node v f l r) m code =
      (if isLeaf (.node v f l r) then mapInsert m v code
       else generateCharCodes r (generateCharCodes l m (code ++ ['0']))
         (code ++ ['1'])) := rfl

theorem pathsList_keys : ∀ (t : HuffmanTreeNode) (code : List Char),
    (pathsList t code).map Prod.fst = leaves t := by
  intro t
  induction t with
  | nil => intro code; rfl
  | node v f l r ihl ihr =>
    intro code
    rw [pathsList_node_eq, leaves_node_eq]
    cases hL : isLeaf (.node v f l r) with
    | true => simp
    | false => simp [ihl, ihr]

theorem pathsList_mem : ∀ (t : HuffmanTreeNode) (code : List Char) (c : Char)
    (p : List Char), (c, p) ∈ pathsList t code →
    ∃ q, p = code ++ q ∧ LeafPath t q c := by
  intro t
  induction t with
  | nil => intro code c p h; simp [pathsList] at h
  | node v f l r ihl ihr =>
    intro code c p h
    rw [pathsList_node_eq] at h
    cases hL : isLeaf (.node v f l r) with
    | true =>
      rw [hL] at h
      simp only [if_true, List.mem_singleton, Prod.mk.injEq] at h
      obtain ⟨h1, h2⟩ := h
      obtain ⟨hl, hr⟩ := (isLeaf_node_iff v f l r).mp hL
      subst hl
      subst hr
      refine ⟨[], by simp [h2], ?_⟩
      rw [h1]
      exact LeafPath.here v f
    | false =>
      rw [hL] at h
      simp only [Bool.false_eq_true, if_false] at h
      rcases List.mem_append.mp h with hm | hm
      · obtain ⟨q, hq, hp⟩ := ihl (code ++ ['0']) c p hm
        exact ⟨'0' :: q, by simp [hq], LeafPath.goLeft v f l r q c hp⟩
      · obtain ⟨q, hq, hp⟩ := ihr (code ++ ['1']) c p hm
        exact ⟨'1' :: q, by simp [hq], LeafPath.goRight v f l r q c hp⟩

theorem LeafPath_ne_nil {t : HuffmanTreeNode} {p : List Char} {c : Char}
    (h : LeafPath t p c) : t ≠ .nil := by
  cases h <;> intro hc <;> cases hc

theorem LeafPath_nil_inv {v : Char} {f : Nat} {l r : HuffmanTreeNode} {c : Char}
    (h : LeafPath (.node v f l r) [] c) : l = .nil ∧ r = .nil ∧ c = v := by
  cases h
  exact ⟨rfl, rfl, rfl⟩

theorem LeafPath_cons_inv {v : Char} {f : Nat} {l r : HuffmanTreeNode}
    {b : Char} {p : List Char} {c : Char}
    (h : LeafPath (.node v f l r) (b :: p) c) :
    (b = '0' ∧ LeafPath l p c) ∨ (b = '1' ∧ LeafPath r p c) := by
  cases h with
  | goLeft _ _ _ _ _ _ hp => exact Or.inl ⟨rfl, hp⟩
  | goRight _ _ _ _ _ _ hp => exact Or.inr ⟨rfl, hp⟩

theorem LeafPath_of_leaf {t : HuffmanTreeNode} {p : List Char} {c : Char}
    (h : LeafPath t p c) (hL : isLeaf t = true) : p = [] ∧ c = get_val t := by
  cases h with
  | here v f => exact ⟨rfl, rfl⟩
  | goLeft v f l r p c hp =>
    obtain ⟨h1, _⟩ := (isLeaf_node_iff _ _ _ _).mp hL
    exact absurd h1 (LeafPath_ne_nil hp)
  | goRight v f l r p c hp =>
    obtain ⟨_, h2⟩ := (isLeaf_node_iff _ _ _ _).mp hL
    exact absurd h2 (LeafPath_ne_nil hp)

theorem LeafPath_ne_nil_path {t : HuffmanTreeNode} {p : List Char} {c : Char}
    (h : LeafPath t p c) (hL : isLeaf t = false) : p ≠ [] := by
  cases h with
  | here v f => rw [isLeaf_leaf] at hL; cases hL
  | goLeft _ _ _ _ _ _ _ => simp
  | goRight _ _ _ _ _ _ _ => simp

theorem LeafPath_no_strict_extension : ∀ (p : List Char)
    {t : HuffmanTreeNode} {c d : Char} {q ext : List Char},
    LeafPath t p c → LeafPath t q d → p ++ ext = q → c = d ∧ p = q := by
  intro p
  induction p with
  | nil =>
    intro t c d q ext h1 h2 he
    cases t with
    | nil => exact absurd rfl (LeafPath_ne_nil h1)
    | node v f l r =>
      obtain ⟨hl, hr, hc⟩ := LeafPath_nil_inv h1
      subst hl
      subst hr
      obtain ⟨hq, hd⟩ := LeafPath_of_leaf h2 (isLeaf_leaf v f)
      subst hq
      subst hc
      subst hd
      exact ⟨rfl, rfl⟩
  | cons b p' ih =>
    intro t c d q ext h1 h2 he
    cases t with
    | nil => exact absurd rfl (LeafPath_ne_nil h1)
    | node v f l r =>
      subst he
      rcases LeafPath_cons_inv h1 with ⟨hb, hp1⟩ | ⟨hb, hp1⟩ <;> subst hb <;>
        rcases LeafPath_cons_inv h2 with ⟨hb2, hp2⟩ | ⟨hb2, hp2⟩
      · obtain ⟨hcd, hpq⟩ := ih hp1 hp2 rfl
        rw [List.append_eq] at hpq
        exact ⟨hcd, congrArg (fun x => '0' :: x) hpq⟩
      · simp at hb2
      · simp at hb2
      · obtain ⟨hcd, hpq⟩ := ih hp1 hp2 rfl
        rw [List.append_eq] at hpq
        exact ⟨hcd, congrArg (fun x => '1' :: x) hpq⟩

theorem mapInsert_of_notMem : ∀ (m : List (Char × List Char)) (k : Char)
    (v : List Char), k ∉ m.map Prod.fst → mapInsert m k v = m ++ [(k, v)] := by
  intro m
  induction m with
  | nil => intro k v _; rfl
  | cons p rest ih =>
    intro k v hk
    obtain ⟨k', v'⟩ := p
    simp only [List.map_cons, List.mem_cons] at hk
    push_neg at hk
    obtain ⟨hk1, hk2⟩ := hk
    simp only [mapInsert, if_neg (Ne.symm hk1)]
    rw [ih k v hk2]
    simp

theorem mapAt_mem : ∀ (m : List (Char × List Char)) (c : Char) (p : List Char),
    mapAt m c = some p → (c, p) ∈ m := by
  intro m
  induction m with
  | nil => intro c p h; simp [mapAt] at h
  | cons q rest ih =>
    intro c p h
    obtain ⟨k, v⟩ := q
    simp only [mapAt] at h
    by_cases hk : k = c
    · rw [if_pos hk] at h
      subst hk
      simp only [Option.some.injEq] at h
      subst h
      simp
    · rw [if_neg hk] at h
      exact List.mem_cons_of_mem _ (ih c p h)

theorem mapAt_isSome : ∀ (m : List (Char × List Char)) (c : Char),
    c ∈ m.map Prod.fst → ∃ p, mapAt m c = some p := by
  intro m
  induction m with
  | nil => intro c h; simp at h
  | cons q rest ih =>
    intro c h
    obtain ⟨k, v⟩ := q
    by_cases hk : k = c
    · exact ⟨v, by simp [mapAt, if_pos hk]⟩
    · simp only [List.map_cons, List.mem_cons] at h
      rcases h with h | h
      · exact absurd h.symm hk
      · obtain ⟨p, hp⟩ := ih c h
        exact ⟨p, by simp [mapAt, if_neg hk, hp]⟩

theorem mapAt_eq_none : ∀ (m : List (Char × List Char)) (c : Char),
    c ∉ m.map Prod.fst → mapAt m c = none := by
  intro m
  induction m with
  | nil => intro c _; rfl
  | cons q rest ih =>
    intro c h
    obtain ⟨k, v⟩ := q
    simp only [List.map_cons, List.mem_cons] at h
    push_neg at h
    obtain ⟨h1, h2⟩ := h
    simp [mapAt, if_neg (Ne.symm h1), ih c h2]

theorem generateCharCodes_eq_pathsList : ∀ (t : HuffmanTreeNode)
    (m : List (Char × List Char)) (code : List Char),
    (leaves t).Nodup → (∀ c ∈ leaves t, c ∉ m.map Prod.fst) →
    generateCharCodes t m code = m ++ pathsList t code := by
  intro t
  induction t with
  | nil => intro m code _ _; simp [generateCharCodes, pathsList]
  | node v f l r ihl ihr =>
    intro m code hnd hdis
    rw [generateCharCodes_node_eq, pathsList_node_eq]
    cases hL : isLeaf (.node v f l r) with
    | true =>
      simp only [if_true]
      refine mapInsert_of_notMem m v code (hdis v ?_)
      rw [leaves_node_eq, hL]
      simp
    | false =>
      simp only [Bool.false_eq_true, if_false]
      rw [leaves_node_eq, hL] at hnd hdis
      simp only [Bool.false_eq_true, if_false] at hnd hdis
      obtain ⟨hndl, hndr, hdisj⟩ := List.nodup_append.mp hnd
      rw [ihl m (code ++ ['0']) hndl
        (fun c hc => hdis c (List.mem_append_left _ hc))]
      rw [ihr (m ++ pathsList l (code ++ ['0'])) (code ++ ['1']) hndr ?_]
      · rw [List.append_assoc]
      · intro c hc
        rw [List.map_append, pathsList_keys]
        intro hmem
        rcases List.mem_append.mp hmem with hm | hm
        · exact hdis c (List.mem_append_right _ hc) hm
        · exact hdisj hm hc

/-!
## Decoding walks
-/

theorem decodeLoop_nil_eq (root curr : HuffmanTreeNode) :
    decodeLoop root [] curr = if curr = root then some [] else none := rfl

theorem decodeLoop_cons (root : HuffmanTreeNode) (bit : Char) (rest : List Char)
    (curr nxt : HuffmanTreeNode)
    (hnxt : (if bit = '0' then get_left curr
             else if bit = '1' then get_right curr else curr) = nxt) :
    decodeLoop root (bit :: rest) curr =
      (if isNil nxt then none
       else if isLeaf nxt then
         (decodeLoop root rest root).map (fun s => get_val nxt :: s)
       else decodeLoop root rest nxt) := by
  subst hnxt
  rfl

theorem isNil_eq_false_of_ne {t : HuffmanTreeNode} (h : t ≠ .nil) :
    isNil t = false := by
  cases t with
  | nil => exact absurd rfl h
  | node v f l r => rfl

theorem decodeLoop_path (root : HuffmanTreeNode) : ∀ (p : List Char)
    (n : HuffmanTreeNode) (c : Char), LeafPath n p c → isLeaf n = false →
    ∀ (rest : List Char), decodeLoop root (p ++ rest) n =
      (decodeLoop root rest root).map (fun s => c :: s) := by
  intro p
  induction p with
  | nil =>
    intro n c h hL rest
    cases n with
    | nil => cases h
    | node v f l r =>
      obtain ⟨h1, h2, _⟩ := LeafPath_nil_inv h
      subst h1
      subst h2
      rw [isLeaf_leaf] at hL
      cases hL
  | cons b p' ih =>
    intro n c h hL rest
    cases n with
    | nil => cases h
    | node v f l r =>
      rcases LeafPath_cons_inv h with ⟨hb, hp⟩ | ⟨hb, hp⟩
      · subst hb
        rw [List.cons_append,
          decodeLoop_cons root '0' (p' ++ rest) _ l (by simp [get_left])]
        rw [isNil_eq_false_of_ne (LeafPath_ne_nil hp)]
        simp only [Bool.false_eq_true, if_false]
        cases hLf : isLeaf l with
        | true =>
          obtain ⟨hp', hc⟩ := LeafPath_of_leaf hp hLf
          subst hp'
          simp only [if_true, List.nil_append]
          rw [hc]
        | false =>
          simp only [Bool.false_eq_true, if_false]
          exact ih l c hp hLf rest
      · subst hb
        rw [List.cons_append,
          decodeLoop_cons root '1' (p' ++ rest) _ r
            (by rw [if_neg (by decide), if_pos rfl]; rfl)]
        rw [isNil_eq_false_of_ne (LeafPath_ne_nil hp)]
        simp only [Bool.false_eq_true, if_false]
        cases hLf : isLeaf r with
        | true =>
          obtain ⟨hp', hc⟩ := LeafPath_of_leaf hp hLf
          subst hp'
          simp only [if_true, List.nil_append]
          rw [hc]
        | false =>
          simp only [Bool.false_eq_true, if_false]
          exact ih r c hp hLf rest

theorem encodeLoop_decodeLoop (root : HuffmanTreeNode)
    (hL : isLeaf root = false) (codes : List (Char × List Char))
    (hcodes : ∀ c p, mapAt codes c = some p → LeafPath root p c) :
    ∀ b : List Char, (∀ c ∈ b, ∃ p, mapAt codes c = some p) →
    ∃ e, encodeLoop b codes = some e ∧ decodeLoop root e root = some b := by
  intro b
  induction b with
  | nil =>
    intro _
    refine ⟨[], rfl, ?_⟩
    rw [decodeLoop_nil_eq, if_pos rfl]
  | cons c rest ih =>
    intro hmem
    obtain ⟨p, hp⟩ := hmem c (List.mem_cons_self c rest)
    obtain ⟨e, he, hd⟩ := ih (fun x hx => hmem x (List.mem_cons_of_mem c hx))
    refine ⟨p ++ e, ?_, ?_⟩
    · simp only [encodeLoop, hp, he]
      rfl
    · rw [decodeLoop_path root p root c (hcodes c p hp) hL e, hd]
      rfl

/-!
## The round trip
-/

theorem buildHuffmanTree_single (c : Char) (n : Nat) :
    buildHuffmanTree [(c, n)] = .node c n .nil .nil := rfl

theorem all_replicate_zero (n : Nat) :
    (List.replicate n '0').all (fun ch => ch == '0') = true := by
  rw [List.all_eq_true]
  intro x hx
  rw [List.eq_of_mem_replicate hx]
  rfl

theorem fullB_not_leaf_of_two {t : HuffmanTreeNode} (hf : fullB t = true)
    (h2 : 2 ≤ (leaves t).length) : isLeaf t = false := by
  cases t with
  | nil => rfl
  | node v f l r =>
    cases hL : isLeaf (.node v f l r) with
    | false => rfl
    | true =>
      obtain ⟨hl, hr⟩ := (isLeaf_node_iff v f l r).mp hL
      subst hl
      subst hr
      rw [leaves_leaf] at h2
      simp at h2

theorem decodeText_of_ne_nil {t : HuffmanTreeNode} (h : t ≠ .nil)
    (e : List Char) : decodeText e t = decodeLoop t e t := by
  rw [decodeText, isNil_eq_false_of_ne h]
  rfl

theorem decodeStage_not_leaf {t : HuffmanTreeNode} (hne : t ≠ .nil)
    (hL : isLeaf t = false) (e : List Char) :
    decodeStage t e = decodeText e t := by
  cases t with
  | nil => exact absurd rfl hne
  | node v f l r => simp [decodeStage, hL]

theorem decodeStage_leaf_eq (v : Char) (f : Nat) (e : List Char) :
    decodeStage (.node v f .nil .nil) e =
      (if e.all (fun ch => ch == '0') then some (List.replicate e.length v)
       else decodeText e (.node v f .nil .nil)) := rfl

theorem roundTrip_core (b : List Char) (hb : b ≠ []) :
    (encodeText b
      (generateCharCodes (buildHuffmanTree (countCharFrequencies b)) [] [])).bind
      (fun e => decodeStage (buildHuffmanTree (countCharFrequencies b)) e) =
      some b := by
  have hnd := countCharFrequencies_nodup b
  have hfne := countCharFrequencies_ne_nil hb
  by_cases hlen : (countCharFrequencies b).length = 1
  · obtain ⟨⟨c, n⟩, hfr⟩ := List.length_eq_one.mp hlen
    have hall : ∀ x ∈ b, x = c := by
      intro x hx
      have hm := (countCharFrequencies_mem b x).mpr hx
      rw [hfr] at hm
      simpa using hm
    rw [hfr, buildHuffmanTree_single]
    have hcodes : generateCharCodes (.node c n .nil .nil) [] [] = [(c, [])] := rfl
    rw [hcodes, encodeText]
    have h1 : ([(c, [])] : List (Char × List Char)).length = 1 := rfl
    rw [if_pos h1, Option.some_bind]
    rw [decodeStage_leaf_eq, if_pos (all_replicate_zero _)]
    simp only [List.length_replicate]
    exact congrArg some (List.eq_replicate_of_mem hall).symm
  · obtain ⟨hfull, hinv, hperm⟩ :=
      buildHuffmanTree_spec (countCharFrequencies b) hfne
    have hlvnd : (leaves (buildHuffmanTree (countCharFrequencies b))).Nodup :=
      hperm.symm.nodup hnd
    have hlen2 : 2 ≤ (countCharFrequencies b).length := by
      have h0 : (countCharFrequencies b).length ≠ 0 :=
        fun hh => hfne (List.length_eq_zero.mp hh)
      omega
    have hlvlen : 2 ≤ (leaves (buildHuffmanTree (countCharFrequencies b))).length := by
      rw [hperm.length_eq, List.length_map]
      exact hlen2
    have hLf : isLeaf (buildHuffmanTree (countCharFrequencies b)) = false :=
      fullB_not_leaf_of_two hfull hlvlen
    have hco : generateCharCodes (buildHuffmanTree (countCharFrequencies b)) [] []
        = pathsList (buildHuffmanTree (countCharFrequencies b)) [] :=
      generateCharCodes_eq_pathsList _ [] [] hlvnd (by simp)
    have hkeys := pathsList_keys (buildHuffmanTree (countCharFrequencies b)) []
    have hclen : (pathsList (buildHuffmanTree (countCharFrequencies b)) []).length ≠ 1 := by
      have h1 : (pathsList (buildHuffmanTree (countCharFrequencies b)) []).length
          = (leaves (buildHuffmanTree (countCharFrequencies b))).length := by
        rw [← hkeys, List.length_map]
      omega
    have hcodes_path : ∀ c p,
        mapAt (pathsList (buildHuffmanTree (countCharFrequencies b)) []) c = some p →
        LeafPath (buildHuffmanTree (countCharFrequencies b)) p c := by
      intro c p hp
      obtain ⟨q, hq1, hq2⟩ := pathsList_mem _ [] c p (mapAt_mem _ c p hp)
      rw [hq1, List.nil_append]
      exact hq2
    have hmem : ∀ c ∈ b, ∃ p,
        mapAt (pathsList (buildHuffmanTree (countCharFrequencies b)) []) c = some p := by
      intro c hc
      apply mapAt_isSome
      rw [hkeys, hperm.mem_iff]
      exact (countCharFrequencies_mem b c).mpr hc
    obtain ⟨e, he, hd⟩ := encodeLoop_decodeLoop _ hLf _ hcodes_path b hmem
    rw [hco, encodeText, if_neg hclen, he, Option.some_bind]
    rw [decodeStage_not_leaf (fullB_ne_nil hfull) hLf,
      decodeText_of_ne_nil (fullB_ne_nil hfull)]
    exact hd

/-!
## Serialization
-/

theorem serializeHuffmanTree_node_eq (v : Char) (f : Nat)
    (l r : HuffmanTreeNode) :
    serializeHuffmanTree (.node v f l r) =
      (if isLeaf (.node v f l r) then ['L', v]
       else 'I' :: (serializeHuffmanTree l ++ serializeHuffmanTree r)) := rfl

theorem serialize_tree_node_eq (v : Char) (f : Nat) (l r : HuffmanTreeNode) :
    serialize_tree (.node v f l r) =
      (if isLeaf (.node v f l r) then ['L', v]
       else 'I' :: (serialize_tree l ++ serialize_tree r)) := rfl

theorem serializeHuffmanTree_ne_nil {t : HuffmanTreeNode} (h : t ≠ .nil) :
    serializeHuffmanTree t ≠ [] := by
  cases t with
  | nil => exact absurd rfl h
  | node v f l r =>
    rw [serializeHuffmanTree_node_eq]
    cases isLeaf (.node v f l r) <;> simp

theorem desHelper_cons_eq (fuel : Nat) (c : Char) (rest : List Char) :
    deserializeHuffmanTreeHelper (fuel + 1) (c :: rest) =
      (if c = 'L' then
         match rest with
         | [] => (.node nullChar 0 .nil .nil, ([] : List Char))
         | v :: rest2 => (.node v 0 .nil .nil, rest2)
       else
         (.node nullChar 0 (deserializeHuffmanTreeHelper fuel rest).1
            (deserializeHuffmanTreeHelper fuel
              (deserializeHuffmanTreeHelper fuel rest).2).1,
          (deserializeHuffmanTreeHelper fuel
            (deserializeHuffmanTreeHelper fuel rest).2).2)) := rfl

theorem p1Helper_cons_eq (fuel : Nat) (c : Char) (rest : List Char) :
    deserialize_treeHelper (fuel + 1) (c :: rest) =
      (if c = 'L' then
         match rest with
         | [] => (.node nullChar 1 .nil .nil, ([] : List Char))
         | v :: rest2 => (.node v 1 .nil .nil, rest2)
       else
         (.node nullChar 1 (deserialize_treeHelper fuel rest).1
            (deserialize_treeHelper fuel
              (deserialize_treeHelper fuel rest).2).1,
          (deserialize_treeHelper fuel
            (deserialize_treeHelper fuel rest).2).2)) := rfl

theorem sameShape_internal {l' r' l r : HuffmanTreeNode} (v' v : Char)
    (f' f : Nat) (hl : l ≠ .nil) :
    sameShape (.node v' f' l' r') (.node v f l r) =
      (sameShape l' l && sameShape r' r) := by
  cases l with
  | nil => exact absurd rfl hl
  | node a b c d => cases l' <;> cases r' <;> cases r <;> rfl

theorem sameShape_node_congr (w : Char) (f f' : Nat)
    {l r l' r' : HuffmanTreeNode} (h1 : sameShape l l' = true)
    (h2 : sameShape r r' = true) :
    sameShape (.node w f l r) (.node w f' l' r') = true := by
  cases l <;> cases l' <;> cases r <;> cases r' <;> simp_all [sameShape]

theorem deserializeHuffmanTreeHelper_roundTrip : ∀ (t : HuffmanTreeNode),
    fullB t = true → ∀ (fuel : Nat) (extra : List Char),
    (serializeHuffmanTree t ++ extra).length ≤ fuel →
    sameShape
      (deserializeHuffmanTreeHelper fuel (serializeHuffmanTree t ++ extra)).1
      t = true ∧
    (deserializeHuffmanTreeHelper fuel (serializeHuffmanTree t ++ extra)).2
      = extra := by
  intro t
  induction t with
  | nil => intro hf; simp [fullB] at hf
  | node v f l r ihl ihr =>
    intro hf fuel extra hlen
    cases hL : isLeaf (.node v f l r) with
    | true =>
      obtain ⟨h1, h2⟩ := (isLeaf_node_iff v f l r).mp hL
      subst h1
      subst h2
      have hs : serializeHuffmanTree (.node v f .nil .nil) = ['L', v] := rfl
      rw [hs] at hlen ⊢
      cases fuel with
      | zero => simp at hlen
      | succ fuel =>
        rw [List.cons_append, List.cons_append, desHelper_cons_eq, if_pos rfl]
        exact ⟨by simp [sameShape], rfl⟩
    | false =>
      have hs : serializeHuffmanTree (.node v f l r) =
          'I' :: (serializeHuffmanTree l ++ serializeHuffmanTree r) := by
        rw [serializeHuffmanTree_node_eq, hL]
        simp
      rw [fullB_node_eq, hL] at hf
      simp only [Bool.false_eq_true, if_false, Bool.and_eq_true,
        Bool.not_eq_true'] at hf
      obtain ⟨⟨⟨hnl, hnr⟩, hfl⟩, hfr⟩ := hf
      rw [hs] at hlen ⊢
      cases fuel with
      | zero => simp at hlen
      | succ fuel =>
        rw [List.cons_append, desHelper_cons_eq, if_neg (by decide)]
        rw [List.append_assoc]
        have hlenl : (serializeHuffmanTree l ++
            (serializeHuffmanTree r ++ extra)).length ≤ fuel := by
          simp only [List.length_cons, List.length_append] at hlen ⊢
          omega
        obtain ⟨hsl, hel⟩ := ihl hfl fuel (serializeHuffmanTree r ++ extra) hlenl
        have hlenr : (serializeHuffmanTree r ++ extra).length ≤ fuel := by
          simp only [List.length_cons, List.length_append] at hlen ⊢
          omega
        obtain ⟨hsr, her⟩ := ihr hfr fuel extra hlenr
        rw [hel]
        refine ⟨?_, her⟩
        have hlne : l ≠ .nil := fun hc => by rw [hc] at hnl; cases hnl
        rw [sameShape_internal nullChar v 0 f hlne, hsl, hsr]
        rfl

theorem serialize_roundTrip_of_full {t : HuffmanTreeNode}
    (hf : fullB t = true) :
    sameShape (deserializeHuffmanTree (serializeHuffmanTree t)) t = true := by
  have hne : serializeHuffmanTree t ≠ [] :=
    serializeHuffmanTree_ne_nil (fullB_ne_nil hf)
  rw [deserializeHuffmanTree, if_neg hne]
  have h := deserializeHuffmanTreeHelper_roundTrip t hf
    (serializeHuffmanTree t).length []
  rw [List.append_nil] at h
  exact (h (by simp)).1

/-!
## Agreement of the duplicate phaseOne implementations
-/

theorem serialize_tree_eq : ∀ t : HuffmanTreeNode,
    serialize_tree t = serializeHuffmanTree t := by
  intro t
  induction t with
  | nil => rfl
  | node v f l r ihl ihr =>
    rw [serialize_tree_node_eq, serializeHuffmanTree_node_eq, ihl, ihr]

theorem phaseOne_helper_agree : ∀ (fuel : Nat) (s : List Char),
    sameShape (deserializeHuffmanTreeHelper fuel s).1
      (deserialize_treeHelper fuel s).1 = true ∧
    (deserializeHuffmanTreeHelper fuel s).2
      = (deserialize_treeHelper fuel s).2 := by
  intro fuel
  induction fuel with
  | zero => intro s; cases s <;> exact ⟨rfl, rfl⟩
  | succ fuel ih =>
    intro s
    cases s with
    | nil => exact ⟨rfl, rfl⟩
    | cons c rest =>
      rw [desHelper_cons_eq, p1Helper_cons_eq]
      by_cases hc : c = 'L'
      · rw [if_pos hc, if_pos hc]
        cases rest with
        | nil => exact ⟨by simp [sameShape], rfl⟩
        | cons v rest2 => exact ⟨by simp [sameShape], rfl⟩
      · rw [if_neg hc, if_neg hc]
        obtain ⟨hs1, he1⟩ := ih rest
        obtain ⟨hs2, he2⟩ := ih (deserializeHuffmanTreeHelper fuel rest).2
        rw [he1] at hs2 he2 ⊢
        exact ⟨sameShape_node_congr nullChar 0 1 hs1 hs2, he2⟩

theorem deserialize_agree (s : List Char) :
    sameShape (deserializeHuffmanTree s) (deserialize_tree s) = true := by
  cases s with
  | nil => rfl
  | cons c rest =>
    rw [deserializeHuffmanTree, if_neg (by simp), deserialize_tree]
    exact (phaseOne_helper_agree (c :: rest).length (c :: rest)).1

/-!
## The decode error condition and the single-leaf root
-/

theorem cursorWalk_nil_eq (root curr : HuffmanTreeNode) :
    cursorWalk root [] curr = some curr := rfl

theorem cursorWalk_cons (root : HuffmanTreeNode) (bit : Char) (rest : List Char)
    (curr nxt : HuffmanTreeNode)
    (hnxt : (if bit = '0' then get_left curr else get_right curr) = nxt) :
    cursorWalk root (bit :: rest) curr =
      (if isNil nxt then none
       else cursorWalk root rest (if isLeaf nxt then root else nxt)) := by
  subst hnxt
  rfl

theorem ne_nil_of_isNil_false {t : HuffmanTreeNode} (h : isNil t = false) :
    t ≠ .nil := by
  cases t with
  | nil => cases h
  | node v f l r => intro hc; cases hc

theorem isSome_map {α β : Type} (g : α → β) (o : Option α) :
    (o.map g).isSome = o.isSome := by
  cases o <;> rfl

theorem decodeLoop_isSome_iff_walk (root : HuffmanTreeNode) (hne : root ≠ .nil) :
    ∀ (bits : List Char) (curr : HuffmanTreeNode), curr ≠ .nil →
    (∀ x ∈ bits, x = '0' ∨ x = '1') →
    ((decodeLoop root bits curr).isSome ↔ cursorWalk root bits curr = some root) := by
  intro bits
  induction bits with
  | nil =>
    intro curr hc hb
    rw [decodeLoop_nil_eq, cursorWalk_nil_eq]
    constructor
    · intro h
      by_cases hcr : curr = root
      · rw [hcr]
      · rw [if_neg hcr] at h
        simp at h
    · intro h
      have hcr : curr = root := by simpa using h
      rw [if_pos hcr]
      rfl
  | cons bit rest ih =>
    intro curr hc hb
    have hbit := hb bit (List.mem_cons_self _ _)
    have hbrest : ∀ x ∈ rest, x = '0' ∨ x = '1' :=
      fun x hx => hb x (List.mem_cons_of_mem _ hx)
    rcases hbit with hbit | hbit <;> subst hbit
    · rw [decodeLoop_cons root '0' rest curr (get_left curr) (by simp),
        cursorWalk_cons root '0' rest curr (get_left curr) (by simp)]
      cases hn : isNil (get_left curr) with
      | true => simp
      | false =>
        simp only [Bool.false_eq_true, if_false]
        cases hLf : isLeaf (get_left curr) with
        | true =>
          simp only [if_true, isSome_map]
          exact ih root hne hbrest
        | false =>
          simp only [Bool.false_eq_true, if_false]
          exact ih (get_left curr) (ne_nil_of_isNil_false hn) hbrest
    · rw [decodeLoop_cons root '1' rest curr (get_right curr) (by simp),
        cursorWalk_cons root '1' rest curr (get_right curr) (by simp)]
      cases hn : isNil (get_right curr) with
      | true => simp
      | false =>
        simp only [Bool.false_eq_true, if_false]
        cases hLf : isLeaf (get_right curr) with
        | true =>
          simp only [if_true, isSome_map]
          exact ih root hne hbrest
        | false =>
          simp only [Bool.false_eq_true, if_false]
          exact ih (get_right curr) (ne_nil_of_isNil_false hn) hbrest

theorem decodeLoop_leaf_garbage (v : Char) (f : Nat) :
    ∀ bits : List Char, (∀ x ∈ bits, x ≠ '0' ∧ x ≠ '1') →
    decodeLoop (.node v f .nil .nil) bits (.node v f .nil .nil)
      = some (List.replicate bits.length v) := by
  intro bits
  induction bits with
  | nil =>
    intro _
    rw [decodeLoop_nil_eq, if_pos rfl]
    rfl
  | cons b rest ih =>
    intro hb
    obtain ⟨h0, h1⟩ := hb b (List.mem_cons_self _ _)
    rw [decodeLoop_cons _ b rest _ (.node v f .nil .nil)
      (by rw [if_neg h0, if_neg h1])]
    have hn : isNil (HuffmanTreeNode.node v f .nil .nil) = false := rfl
    rw [hn]
    simp only [Bool.false_eq_true, if_false, isLeaf_leaf, if_true]
    rw [ih (fun x hx => hb x (List.mem_cons_of_mem _ hx))]
    rfl

theorem decodeLoop_leaf_kills (v : Char) (f : Nat) :
    ∀ bits : List Char, (∃ x ∈ bits, x = '0' ∨ x = '1') →
    decodeLoop (.node v f .nil .nil) bits (.node v f .nil .nil) = none := by
  intro bits
  induction bits with
  | nil => intro h; simp at h
  | cons b rest ih =>
    intro hex
    by_cases hb : b = '0' ∨ b = '1'
    · rcases hb with hb | hb <;> subst hb
      · rw [decodeLoop_cons _ '0' rest _ .nil (by simp [get_left])]
        rfl
      · rw [decodeLoop_cons _ '1' rest _ .nil (by simp [get_right])]
        rfl
    · push_neg at hb
      obtain ⟨h0, h1⟩ := hb
      rw [decodeLoop_cons _ b rest _ (.node v f .nil .nil)
        (by rw [if_neg h0, if_neg h1])]
      have hn : isNil (HuffmanTreeNode.node v f .nil .nil) = false := rfl
      rw [hn]
      simp only [Bool.false_eq_true, if_false, isLeaf_leaf, if_true]
      have hrest : ∃ x ∈ rest, x = '0' ∨ x = '1' := by
        obtain ⟨x, hx, hor⟩ := hex
        rcases List.mem_cons.mp hx with h | h
        · subst h
          rcases hor with h | h
          · exact absurd h h0
          · exact absurd h h1
        · exact ⟨x, h, hor⟩
      rw [ih hrest]
      rfl

/-!
## Encoding with a degenerate or incomplete table
-/

theorem encodeLoop_missing : ∀ (input : List Char)
    (codes : List (Char × List Char)) (c : Char),
    mapAt codes c = none → c ∈ input → encodeLoop input codes = none := by
  intro input
  induction input with
  | nil => intro codes c _ h; simp at h
  | cons x rest ih =>
    intro codes c hc hmem
    rcases List.mem_cons.mp hmem with h | h
    · rw [h] at hc
      simp only [encodeLoop, hc]
    · cases hx : mapAt codes x with
      | none => simp only [encodeLoop, hx]
      | some p =>
        simp only [encodeLoop, hx, ih codes c hc h]
        rfl

/-!
## Claim theorems
-/

/-- Claim C1 (amended): for every nonempty byte sequence `b`, decoding the
encoding of `b` (against the tree built from `b`'s frequency table, with the
decoder's single-leaf special case) yields exactly `b`.  The original claim
also covers the empty sequence, where `buildHuffmanTree` calls `pq.top()` on
an empty priority queue (undefined behaviour) and the composition cannot
return `b`; see the counterexample. -/
theorem huffman_roundTrip_nonempty (b : List Char) (hb : b ≠ []) :
    (encodeText b
      (generateCharCodes (buildHuffmanTree (countCharFrequencies b)) [] [])).bind
      (fun e => decodeStage (buildHuffmanTree (countCharFrequencies b)) e) =
      some b :=
  roundTrip_core b hb

/-- Witness for C1: the round trip at the concrete input "ab". -/
theorem huffman_roundTrip_nonempty_witness :
    (encodeText ['a', 'b']
      (generateCharCodes
        (buildHuffmanTree (countCharFrequencies ['a', 'b'])) [] [])).bind
      (fun e =>
        decodeStage (buildHuffmanTree (countCharFrequencies ['a', 'b'])) e) =
      some ['a', 'b'] :=
  huffman_roundTrip_nonempty ['a', 'b'] (by decide)

/-- Counterexample for C1 as stated: at the empty sequence the composition
does not yield the empty sequence — the frequency table is empty, the builder
has no node to return (`pq.top()` on an empty queue, modelled as the null
tree) and the decoder dereferences it (modelled as `none`). -/
theorem huffman_roundTrip_empty_counterexample :
    (encodeText []
      (generateCharCodes (buildHuffmanTree (countCharFrequencies [])) [] [])).bind
      (fun e => decodeStage (buildHuffmanTree (countCharFrequencies [])) e) =
      none := by decide

/-- Claim C2: for every tree produced by TreeBuilder from a non-empty
frequency table, deserializing the serialization yields a structurally
identical tree (same shape, same symbols at the leaves), and the empty tree
serializes to the empty string. -/
theorem serializeHuffmanTree_roundTrip (freqs : List (Char × Nat))
    (h : freqs ≠ []) :
    serializeHuffmanTree .nil = [] ∧
      sameShape
        (deserializeHuffmanTree (serializeHuffmanTree (buildHuffmanTree freqs)))
        (buildHuffmanTree freqs) = true :=
  ⟨rfl, serialize_roundTrip_of_full (buildHuffmanTree_spec freqs h).1⟩

/-- Witness for C2: the serialization round trip at the table {a:1, b:2}. -/
theorem serializeHuffmanTree_roundTrip_witness :
    serializeHuffmanTree .nil = [] ∧
      sameShape
        (deserializeHuffmanTree
          (serializeHuffmanTree (buildHuffmanTree [('a', 1), ('b', 2)])))
        (buildHuffmanTree [('a', 1), ('b', 2)]) = true :=
  serializeHuffmanTree_roundTrip [('a', 1), ('b', 2)] (by decide)

/-- Counterexample for C3 as stated: the string "I" ends mid-parse (an
internal tag with no children), yet `deserializeHuffmanTree` returns a tree —
an internal-shaped node with two null children — rather than reporting a
MalformedTree error (the source has no error path at all). -/
theorem deserializeHuffmanTree_truncated_counterexample :
    deserializeHuffmanTree ['I'] = .node nullChar 0 .nil .nil := by decide

/-- Claim C3 (amended): `deserializeHuffmanTree` never reports an error.
Running off the end of the string yields null subtrees ("I" parses to a node
with two null children, "ILa" to a node whose right child is null); a
trailing 'L' tag reads the string's terminating null byte and yields a leaf
with symbol '\0'; and any tag byte other than 'L' — not just 'I' — is parsed
as an internal node. -/
theorem deserializeHuffmanTree_total_behavior (c : Char) (hc : c ≠ 'L') :
    deserializeHuffmanTree ['I'] = .node nullChar 0 .nil .nil ∧
      deserializeHuffmanTree ['L'] = .node nullChar 0 .nil .nil ∧
      deserializeHuffmanTree ['I', 'L', 'a'] =
        .node nullChar 0 (.node 'a' 0 .nil .nil) .nil ∧
      deserializeHuffmanTree [c, 'L', 'a', 'L', 'b'] =
        .node nullChar 0 (.node 'a' 0 .nil .nil) (.node 'b' 0 .nil .nil) := by
  refine ⟨by decide, by decide, by decide, ?_⟩
  rw [deserializeHuffmanTree, if_neg (by simp)]
  have hlen : ([c, 'L', 'a', 'L', 'b'] : List Char).length = 4 + 1 := rfl
  rw [hlen, desHelper_cons_eq, if_neg hc]
  have h4 : deserializeHuffmanTreeHelper 4 ['L', 'a', 'L', 'b'] =
      (.node 'a' 0 .nil .nil, ['L', 'b']) := by decide
  rw [h4]
  have h4' : deserializeHuffmanTreeHelper 4 ['L', 'b'] =
      (.node 'b' 0 .nil .nil, []) := by decide
  rw [h4']

/-- Witness for C3 (amended), at the unrecognized tag byte 'X'. -/
theorem deserializeHuffmanTree_total_behavior_witness :
    deserializeHuffmanTree ['I'] = .node nullChar 0 .nil .nil ∧
      deserializeHuffmanTree ['L'] = .node nullChar 0 .nil .nil ∧
      deserializeHuffmanTree ['I', 'L', 'a'] =
        .node nullChar 0 (.node 'a' 0 .nil .nil) .nil ∧
      deserializeHuffmanTree ['X', 'L', 'a', 'L', 'b'] =
        .node nullChar 0 (.node 'a' 0 .nil .nil) (.node 'b' 0 .nil .nil) :=
  deserializeHuffmanTree_total_behavior 'X' (by decide)

/-- Claim C4: against a tree with an internal root, for a bit-string of
'0'/'1' characters, `decodeText` fails exactly when the described cursor walk
either moves to a null child or does not finish back at the root; in
particular "111" against a tree with no right child two levels deep fails
(and, the result being an error, no partial output is returned). -/
theorem decodeText_malformed_iff (root : HuffmanTreeNode) (bits : List Char)
    (h1 : root ≠ .nil) (_h2 : isLeaf root = false)
    (hb : ∀ x ∈ bits, x = '0' ∨ x = '1') :
    (decodeText bits root = none ↔ cursorWalk root bits root ≠ some root) ∧
      decodeText ['1', '1', '1']
        (.node nullChar 0 (.node 'a' 0 .nil .nil)
          (.node nullChar 0 (.node 'b' 0 .nil .nil) .nil)) = none := by
  refine ⟨?_, by decide⟩
  have hiff := decodeLoop_isSome_iff_walk root h1 bits root h1 hb
  rw [decodeText_of_ne_nil h1]
  constructor
  · intro h hw
    rw [← hiff, h] at hw
    simp at hw
  · intro hw
    cases hopt : decodeLoop root bits root with
    | none => rfl
    | some val => exact absurd (hiff.mp (by rw [hopt]; rfl)) hw

/-- Witness for C4: decoding "01" against the two-leaf tree (a, b). -/
theorem decodeText_malformed_iff_witness :
    ((decodeText ['0', '1']
        (.node nullChar 0 (.node 'a' 0 .nil .nil) (.node 'b' 0 .nil .nil))
        = none ↔
      cursorWalk
        (.node nullChar 0 (.node 'a' 0 .nil .nil) (.node 'b' 0 .nil .nil))
        ['0', '1']
        (.node nullChar 0 (.node 'a' 0 .nil .nil) (.node 'b' 0 .nil .nil))
        ≠ some
          (.node nullChar 0 (.node 'a' 0 .nil .nil) (.node 'b' 0 .nil .nil))) ∧
      decodeText ['1', '1', '1']
        (.node nullChar 0 (.node 'a' 0 .nil .nil)
          (.node nullChar 0 (.node 'b' 0 .nil .nil) .nil)) = none) :=
  decodeText_malformed_iff
    (.node nullChar 0 (.node 'a' 0 .nil .nil) (.node 'b' 0 .nil .nil))
    ['0', '1'] (by decide) (by decide) (by decide)

/-- Claim C5: for a frequency table with at least two distinct symbols, in the
code table generated from the built tree every symbol of the table has a
non-empty code, and no symbol's code is a prefix of another symbol's code
(`p ++ ext = q` is impossible for codes of distinct symbols). -/
theorem generateCharCodes_prefixFree (freqs : List (Char × Nat))
    (hnd : (freqs.map Prod.fst).Nodup) (h2 : 2 ≤ freqs.length) :
    (∀ c ∈ freqs.map Prod.fst,
      ∃ p, mapAt (generateCharCodes (buildHuffmanTree freqs) [] []) c = some p ∧
        p ≠ []) ∧
    (∀ (c d : Char) (p q : List Char), c ≠ d →
      mapAt (generateCharCodes (buildHuffmanTree freqs) [] []) c = some p →
      mapAt (generateCharCodes (buildHuffmanTree freqs) [] []) d = some q →
      ∀ ext, p ++ ext ≠ q) := by
  have hfne : freqs ≠ [] := by
    intro hc
    rw [hc] at h2
    simp at h2
  obtain ⟨hfull, hinv, hperm⟩ := buildHuffmanTree_spec freqs hfne
  have hlvnd : (leaves (buildHuffmanTree freqs)).Nodup := hperm.symm.nodup hnd
  have hlvlen : 2 ≤ (leaves (buildHuffmanTree freqs)).length := by
    rw [hperm.length_eq, List.length_map]
    exact h2
  have hLf : isLeaf (buildHuffmanTree freqs) = false :=
    fullB_not_leaf_of_two hfull hlvlen
  have hco : generateCharCodes (buildHuffmanTree freqs) [] []
      = pathsList (buildHuffmanTree freqs) [] :=
    generateCharCodes_eq_pathsList _ [] [] hlvnd (by simp)
  have hkeys := pathsList_keys (buildHuffmanTree freqs) []
  have hpath : ∀ c p, mapAt (pathsList (buildHuffmanTree freqs) []) c = some p →
      LeafPath (buildHuffmanTree freqs) p c := by
    intro c p hp
    obtain ⟨q, hq1, hq2⟩ := pathsList_mem _ [] c p (mapAt_mem _ c p hp)
    rw [hq1, List.nil_append]
    exact hq2
  constructor
  · intro c hc
    have hcl : c ∈ (pathsList (buildHuffmanTree freqs) []).map Prod.fst := by
      rw [hkeys, hperm.mem_iff]
      exact hc
    obtain ⟨p, hp⟩ := mapAt_isSome _ c hcl
    rw [hco]
    exact ⟨p, hp, LeafPath_ne_nil_path (hpath c p hp) hLf⟩
  · intro c d p q hcd hp hq ext hext
    rw [hco] at hp hq
    obtain ⟨heq, _⟩ :=
      LeafPath_no_strict_extension p (hpath c p hp) (hpath d q hq) hext
    exact hcd heq

/-- Witness for C5, at the table {a:1, b:2}. -/
theorem generateCharCodes_prefixFree_witness :
    (∀ c ∈ ([('a', 1), ('b', 2)] : List (Char × Nat)).map Prod.fst,
      ∃ p, mapAt
        (generateCharCodes (buildHuffmanTree [('a', 1), ('b', 2)]) [] []) c
        = some p ∧ p ≠ []) ∧
    (∀ (c d : Char) (p q : List Char), c ≠ d →
      mapAt (generateCharCodes (buildHuffmanTree [('a', 1), ('b', 2)]) [] []) c
        = some p →
      mapAt (generateCharCodes (buildHuffmanTree [('a', 1), ('b', 2)]) [] []) d
        = some q →
      ∀ ext, p ++ ext ≠ q) :=
  generateCharCodes_prefixFree [('a', 1), ('b', 2)] (by decide) (by decide)

/-- Counterexample for C6 as stated: the bit-string "2" contains a character
other than '0' against a single-leaf tree, yet the decoder returns the output
"a" (the cursor never moves off the leaf, so the character is silently
decoded) instead of raising MalformedEncoding. -/
theorem decodeStage_singleLeaf_counterexample :
    decodeStage (.node 'a' 1 .nil .nil) ['2'] = some ['a'] := by decide

/-- Claim C6 (amended): against a single-leaf root, an all-'0' bitstream
decodes to one occurrence of the leaf symbol per bit; a bitstream that is not
all '0' but contains at least one '0' or '1' raises MalformedEncoding; but a
bitstream consisting solely of characters other than '0' and '1' is silently
decoded to one occurrence of the leaf symbol per character instead of
raising. -/
theorem decodeStage_singleLeaf_behavior (v : Char) (f : Nat)
    (bits : List Char) :
    (bits.all (fun ch => ch == '0') = true →
      decodeStage (.node v f .nil .nil) bits
        = some (List.replicate bits.length v)) ∧
    ((∃ x ∈ bits, x = '0' ∨ x = '1') →
      bits.all (fun ch => ch == '0') = false →
      decodeStage (.node v f .nil .nil) bits = none) ∧
    ((∀ x ∈ bits, x ≠ '0' ∧ x ≠ '1') →
      decodeStage (.node v f .nil .nil) bits
        = some (List.replicate bits.length v)) := by
  refine ⟨?_, ?_, ?_⟩
  · intro hall
    rw [decodeStage_leaf_eq, if_pos hall]
  · intro hex hall
    rw [decodeStage_leaf_eq, if_neg (by simp [hall])]
    rw [decodeText_of_ne_nil (by intro hc; cases hc)]
    exact decodeLoop_leaf_kills v f bits hex
  · intro hg
    cases hall : bits.all (fun ch => ch == '0') with
    | true => rw [decodeStage_leaf_eq, if_pos hall]
    | false =>
      rw [decodeStage_leaf_eq, if_neg (by simp [hall])]
      rw [decodeText_of_ne_nil (by intro hc; cases hc)]
      exact decodeLoop_leaf_garbage v f bits hg

/-- Witness for C6 (amended): "00" against the leaf 'a' decodes to "aa". -/
theorem decodeStage_singleLeaf_behavior_witness :
    decodeStage (.node 'a' 1 .nil .nil) ['0', '0']
      = some (List.replicate (['0', '0'] : List Char).length 'a') :=
  (decodeStage_singleLeaf_behavior 'a' 1 ['0', '0']).1 (by decide)

/-- Claim C7: with a one-entry code table the encoder emits the single bit
'0' per input byte — the encoded string is exactly `input.length` many '0'
characters — and concretely "aaaa" encodes to "0000" and decodes back to
"aaaa" through the full pipeline. -/
theorem encodeText_singleEntry (char_codes : List (Char × List Char))
    (h : char_codes.length = 1) :
    (∀ input : List Char,
      encodeText input char_codes = some (List.replicate input.length '0')) ∧
    encodeText ['a', 'a', 'a', 'a']
      (generateCharCodes
        (buildHuffmanTree (countCharFrequencies ['a', 'a', 'a', 'a'])) [] [])
      = some ['0', '0', '0', '0'] ∧
    decodeStage (buildHuffmanTree (countCharFrequencies ['a', 'a', 'a', 'a']))
      ['0', '0', '0', '0'] = some ['a', 'a', 'a', 'a'] :=
  ⟨fun input => by rw [encodeText, if_pos h], by decide, by decide⟩

/-- Witness for C7, at the one-entry table {a ↦ ""}. -/
theorem encodeText_singleEntry_witness :
    (∀ input : List Char,
      encodeText input [('a', [])] = some (List.replicate input.length '0')) ∧
    encodeText ['a', 'a', 'a', 'a']
      (generateCharCodes
        (buildHuffmanTree (countCharFrequencies ['a', 'a', 'a', 'a'])) [] [])
      = some ['0', '0', '0', '0'] ∧
    decodeStage (buildHuffmanTree (countCharFrequencies ['a', 'a', 'a', 'a']))
      ['0', '0', '0', '0'] = some ['a', 'a', 'a', 'a'] :=
  encodeText_singleEntry [('a', [])] rfl

/-- Claim C8: every tree built from a non-empty frequency table satisfies the
shape invariant (non-null; a node is a leaf iff it has zero children; every
internal node has exactly two children) and the frequency invariant (every
internal node's frequency is the sum of its children's); a one-entry table
yields a single leaf with no internal node; and {a:3, b:2, c:1} yields a root
of combined frequency 6 with two children. -/
theorem buildHuffmanTree_invariants (freqs : List (Char × Nat))
    (h : freqs ≠ []) :
    fullB (buildHuffmanTree freqs) = true ∧
      freqInvB (buildHuffmanTree freqs) = true ∧
      (∀ (c : Char) (n : Nat),
        buildHuffmanTree [(c, n)] = .node c n .nil .nil) ∧
      get_freq (buildHuffmanTree [('a', 3), ('b', 2), ('c', 1)]) = 6 ∧
      get_left (buildHuffmanTree [('a', 3), ('b', 2), ('c', 1)]) ≠ .nil ∧
      get_right (buildHuffmanTree [('a', 3), ('b', 2), ('c', 1)]) ≠ .nil := by
  obtain ⟨hfull, hinv, _⟩ := buildHuffmanTree_spec freqs h
  exact ⟨hfull, hinv, fun c n => rfl, by decide, by decide, by decide⟩

/-- Witness for C8, at the one-entry table {a:1}. -/
theorem buildHuffmanTree_invariants_witness :
    fullB (buildHuffmanTree [('a', 1)]) = true ∧
      freqInvB (buildHuffmanTree [('a', 1)]) = true ∧
      (∀ (c : Char) (n : Nat),
        buildHuffmanTree [(c, n)] = .node c n .nil .nil) ∧
      get_freq (buildHuffmanTree [('a', 3), ('b', 2), ('c', 1)]) = 6 ∧
      get_left (buildHuffmanTree [('a', 3), ('b', 2), ('c', 1)]) ≠ .nil ∧
      get_right (buildHuffmanTree [('a', 3), ('b', 2), ('c', 1)]) ≠ .nil :=
  buildHuffmanTree_invariants [('a', 1)] (by decide)

/-- Claim C9: the duplicate phaseOne free functions agree with the member
implementations — `serialize_tree` emits exactly the same string as
`serializeHuffmanTree` on every tree, and `deserialize_tree` produces a tree
structurally identical (same shape, same leaf symbols) to
`deserializeHuffmanTree`'s on every string. -/
theorem phaseOne_duplicate_agreement :
    (∀ t : HuffmanTreeNode, serialize_tree t = serializeHuffmanTree t) ∧
      (∀ s : List Char,
        sameShape (deserializeHuffmanTree s) (deserialize_tree s) = true) :=
  ⟨serialize_tree_eq, deserialize_agree⟩

/-- Claim C10: with a one-entry code table, `encodeText` performs no table
lookup and never fails — it returns `input.length` many '0' characters for
every input, even one whose symbols are absent from the table; the
absent-symbol failure exists only on the multi-entry path, via the map
lookup. -/
theorem encodeText_singleEntry_total (char_codes : List (Char × List Char))
    (h : char_codes.length = 1) :
    (∀ input : List Char,
      encodeText input char_codes = some (List.replicate input.length '0')) ∧
    (∀ (codes2 : List (Char × List Char)) (c : Char) (input : List Char),
      codes2.length ≠ 1 → mapAt codes2 c = none → c ∈ input →
      encodeText input codes2 = none) := by
  refine ⟨fun input => by rw [encodeText, if_pos h], ?_⟩
  intro codes2 c input hlen hc hmem
  rw [encodeText, if_neg hlen]
  exact encodeLoop_missing input codes2 c hc hmem

/-- Witness for C10, at the one-entry table {b ↦ ""} and an input using a
symbol absent from the table. -/
theorem encodeText_singleEntry_total_witness :
    (∀ input : List Char,
      encodeText input [('b', [])] = some (List.replicate input.length '0')) ∧
    (∀ (codes2 : List (Char × List Char)) (c : Char) (input : List Char),
      codes2.length ≠ 1 → mapAt codes2 c = none → c ∈ input →
      encodeText input codes2 = none) :=
  encodeText_singleEntry_total [('b', [])] rfl
